import Mathlib

/-!
Verification of the route-planner scheduling core (`src/app.py`).

The development shallowly embeds the data model and the pure cores of the
relevant request handlers:

* the merge reconciler of `upload_recurring_merge` (app.py:1521-1553),
* the pattern deriver (app.py:1394-1404, 1566-1575 and analogous blocks),
* the delete + assignment-cleanup pipeline of `delete_specific_appointment`
  (app.py:613-651) and `delete_recurring_appointment` (app.py:776-825),
* the CSV-row validation loop of `recurring_upload` (app.py:1341-1373),
* the export row builders of `download_schedule` (app.py:1249-1283) and
  `download_recurring_schedule` (app.py:1725-1764).

Weight cells are embedded as `Weight`: either an ordinary number (an
integer; the code only ever compares weights for equality) or the float
NaN, which a blank CSV weight cell produces because the bulk paths pass
`row['Minimum Weight']` through unvalidated; the code's `==` on weights is
modelled by `weightEqB`, under which `NaN == NaN` is false as in Python.
Derived hour values are embedded as exact integer counts of sixtieths
of an hour (the code computes the float `h + m/60.0`; the map to `60*h + m`
is injective and order-preserving on these values, so every equality and
ordering comparison the code performs coincides).  Python dicts
built by comprehension are embedded as last-match lookup over the
underlying list, and `uuid.uuid4()` as an explicit supply `Nat → String`
of generated identifiers.
-/

namespace RoutePlanner

/-- app.py:1486 (also 402, 488, ...): the fixed weekday enumeration. -/
def weekdays : List String :=
  ["Monday", "Tuesday", "Wednesday", "Thursday", "Friday", "Saturday", "Sunday"]

/-- app.py:1487 (also 403, 489, ...): the fixed ordinal enumeration. -/
def ordinals : List String :=
  ["First", "Second", "Third", "Fourth", "Fifth"]

/-- A weight cell value.  The bulk CSV paths pass `row['Minimum Weight']`
and `row['Maximum Weight']` through with no validation and no
blank-defaults-to-0.0 step (app.py:1346-1347, 1505-1506), so a blank cell
reaches the stored document as the float NaN; every other reachable weight
behaves as an ordinary number. -/
inductive Weight where
  | num : Int → Weight
  | nan : Weight
deriving DecidableEq

/-- Python `==` on two weight values: numbers compare by value, and any
comparison involving NaN — including `NaN == NaN` — is false. -/
def weightEqB : Weight → Weight → Bool
  | Weight.num a, Weight.num b => a == b
  | _, _ => false

theorem eq_of_weightEqB {a b : Weight} (h : weightEqB a b = true) : a = b := by
  cases a <;> cases b <;> simp_all [weightEqB]

theorem weightEqB_self {a : Weight} (h : a ≠ Weight.nan) :
    weightEqB a a = true := by
  cases a
  · simp [weightEqB]
  · exact absurd rfl h

/-- A validated recurring CSV row before an identifier is assigned
(app.py:1501-1513, the dict appended to `new_rows`). -/
structure NewRow where
  agency_number : String
  account_name : String
  area : String
  min_weight : Weight
  max_weight : Weight
  day : String
  frequency : String
  start_hour : Int
  end_hour : Int
  start_time_str : String
  end_time_str : String
deriving DecidableEq

/-- A stored recurring appointment definition: a `NewRow` plus the opaque
identifier (`'id'` key of the stored dict). -/
structure RecDef extends NewRow where
  id : String
deriving DecidableEq

/-- Attach an identifier to a row (`row['id'] = ...`, app.py:1542/1545/1548). -/
def NewRow.withId (r : NewRow) (i : String) : RecDef :=
  { toNewRow := r, id := i }

/-- The natural key `_key` of app.py:1521-1525: the 7-tuple
(agency_number, account_name, area, day, frequency, start_time_str, end_time_str). -/
structure NatKey where
  agency_number : String
  account_name : String
  area : String
  day : String
  frequency : String
  start_time_str : String
  end_time_str : String
deriving DecidableEq

/-- `_key(row)` for a not-yet-identified row. -/
def natKey (r : NewRow) : NatKey :=
  ⟨r.agency_number, r.account_name, r.area, r.day, r.frequency,
   r.start_time_str, r.end_time_str⟩

/-- `_key(a)` for a stored definition. -/
def recKey (a : RecDef) : NatKey :=
  natKey a.toNewRow

/-- `existing_map = {_key(a): a for a in existing}` followed by
`existing_map.get(k)` (app.py:1526, 1534): a dict comprehension keeps the
last entry per key, so lookup returns the last stored definition whose
natural key matches. -/
def existingMapGet (es : List RecDef) (k : NatKey) : Option RecDef :=
  es.reverse.find? (fun a => recKey a == k)

/-- The `identical` test of app.py:1537-1540: only `min_weight` and
`max_weight` are compared (with Python `==`) once the natural keys agree. -/
def weightsEq (ex : RecDef) (r : NewRow) : Prop :=
  weightEqB ex.min_weight r.min_weight = true ∧
  weightEqB ex.max_weight r.max_weight = true

instance (ex : RecDef) (r : NewRow) : Decidable (weightsEq ex r) := by
  unfold weightsEq; infer_instance

/-- Result of the merge reconciler: the merged definition list, the list of
replaced identifiers, the set of processed natural keys and the next unused
index of the fresh-identifier supply. -/
structure MergeOut where
  merged : List RecDef
  replaced : List String
  processedKeys : List NatKey
  ctr : Nat
deriving DecidableEq

/-- The row loop of app.py:1532-1549.  `f` is the supply of generated
identifiers (`str(uuid.uuid4())`), `c` the number already consumed. -/
def mergeRows (f : Nat → String) (es : List RecDef) (c : Nat) :
    List NewRow → MergeOut
  | [] => ⟨[], [], [], c⟩
  | r :: rs =>
    match existingMapGet es (natKey r) with
    | some ex =>
      if weightsEq ex r then
        let rest := mergeRows f es c rs
        ⟨r.withId ex.id :: rest.merged, rest.replaced,
         natKey r :: rest.processedKeys, rest.ctr⟩
      else
        let rest := mergeRows f es (c + 1) rs
        ⟨r.withId (f c) :: rest.merged, ex.id :: rest.replaced,
         natKey r :: rest.processedKeys, rest.ctr⟩
    | none =>
      let rest := mergeRows f es (c + 1) rs
      ⟨r.withId (f c) :: rest.merged, rest.replaced, rest.processedKeys,
       rest.ctr⟩

/-- The full reconciler of app.py:1528-1553: process every new row, then
append every existing definition whose natural key was not processed. -/
def mergeReconcile (f : Nat → String) (newRows : List NewRow)
    (es : List RecDef) : MergeOut :=
  let out := mergeRows f es 0 newRows
  { out with
    merged := out.merged ++ es.filter (fun e => decide (recKey e ∉ out.processedKeys)) }

/-- First spec post-condition: no natural key of the merged output survives
with more than one identifier. -/
def postNoDupKeyB (merged : List RecDef) : Bool :=
  merged.all fun a => merged.all fun b =>
    decide (recKey a = recKey b → a.id = b.id)

/-- Second spec post-condition: no replaced identifier remains in the
merged output. -/
def postReplacedAbsentB (out : MergeOut) : Bool :=
  out.replaced.all fun i => out.merged.all fun a => decide (a.id ≠ i)

/-- A derived recurrence pattern (app.py:1574 and analogous blocks):
`{'label': f"{frequency} {day}", 'frequency': ..., 'day': ...}`. -/
structure Pattern where
  label : String
  frequency : String
  day : String
deriving DecidableEq

/-- The pattern a single definition contributes. -/
def patternOf (a : RecDef) : Pattern :=
  ⟨a.frequency ++ " " ++ a.day, a.frequency, a.day⟩

/-- The deduplication loop of app.py:1568-1574: walk the definitions in
order, keeping the first pattern seen for each label (`seen` is the set of
labels already emitted). -/
def dedupePatterns (seen : List String) : List RecDef → List Pattern
  | [] => []
  | a :: rest =>
    let lbl := a.frequency ++ " " ++ a.day
    if lbl ∈ seen then dedupePatterns seen rest
    else ⟨lbl, a.frequency, a.day⟩ :: dedupePatterns (lbl :: seen) rest

/-- The sort key of app.py:1575:
`(ordinals_order.index(p['frequency']), weekdays_order.index(p['day']))`
compared lexicographically. -/
def patternLe (p q : Pattern) : Bool :=
  let op := ordinals.indexOf p.frequency
  let oq := ordinals.indexOf q.frequency
  op < oq || (op == oq && weekdays.indexOf p.day ≤ weekdays.indexOf q.day)

/-- The sort order of `patterns.sort(key=...)` as a relation. -/
def PatLe (p q : Pattern) : Prop :=
  patternLe p q = true

instance : DecidableRel PatLe := fun p q => by
  unfold PatLe; infer_instance

/-- The full pattern deriver (app.py:1566-1575): deduplicate by label in
input order, then stable-sort by (ordinal index, weekday index), as
`patterns.sort(key=...)` does. -/
def derivePatterns (defs : List RecDef) : List Pattern :=
  (dedupePatterns [] defs).insertionSort PatLe

/-- An assignment map: grouping key (ISO date or pattern label) to slot key
to ordered identifier sequence, as parsed from the saved JSON document. -/
abbrev Sched : Type :=
  List (String × List (String × List String))

/-- `if appt_id in id_list: id_list[:] = [i for i in id_list if i != appt_id]`
(app.py:644-646, 818-820): the filtered sequence, plus whether this slot
was mutated. -/
def cleanIdList (aid : String) (ids : List String) : List String × Bool :=
  if aid ∈ ids then (ids.filter (fun i => i != aid), true) else (ids, false)

/-- The inner cleanup loop over the slots of one date or pattern. -/
def cleanSlots (aid : String) :
    List (String × List String) → List (String × List String) × Bool
  | [] => ([], false)
  | s :: rest =>
    let c := cleanIdList aid s.2
    let r := cleanSlots aid rest
    ((s.1, c.1) :: r.1, c.2 || r.2)

/-- The cleanup scan of app.py:640-647 / 814-821: remove the identifier
from every slot sequence of every date/pattern, reporting whether any
mutation occurred. -/
def cleanSchedule (aid : String) : Sched → Sched × Bool
  | [] => ([], false)
  | d :: rest =>
    let c := cleanSlots aid d.2
    let r := cleanSchedule aid rest
    ((d.1, c.1) :: r.1, c.2 || r.2)

/-- Outcome of a delete request: the two stored documents afterwards,
whether each was re-persisted, and whether the identifier was found. -/
structure DeleteOutcome (α : Type) where
  defs : List α
  sched : Sched
  defsWritten : Bool
  schedWritten : Bool
  ok : Bool
deriving DecidableEq

/-- The delete pipeline shared by `delete_specific_appointment`
(app.py:621-652) and `delete_recurring_appointment` (app.py:784-826),
abstracted over the definition record type via its identifier projection:
filter the definitions; if nothing was removed, report not-found without
writing; otherwise persist the definitions and clean the saved assignment
map, re-persisting it only if the cleanup mutated it. -/
def deleteAppointment (getId : α → String) (aid : String) (defs : List α)
    (sched : Sched) : DeleteOutcome α :=
  let newApps := defs.filter (fun a => getId a != aid)
  if newApps.length = defs.length then
    ⟨defs, sched, false, false, false⟩
  else
    let c := cleanSchedule aid sched
    if c.2 then ⟨newApps, c.1, true, true, true⟩
    else ⟨newApps, sched, true, false, true⟩

/-- A stored specific-date appointment definition (app.py:948-958). -/
structure SpecDef where
  id : String
  agency_number : String
  account_name : String
  area : String
  min_weight : Weight
  max_weight : Weight
  start_time : String
  end_time : String
  start_hour : Int
deriving DecidableEq

/-- `appt_lookup = {appt['id']: appt for appt in appointments}` followed by
`.get(aid)` (app.py:1250, 1266): last stored definition with the identifier. -/
def apptLookup (appointments : List SpecDef) (aid : String) : Option SpecDef :=
  appointments.reverse.find? (fun a => a.id == aid)

/-- Identifier lookup over recurring definitions (app.py:1725, 1745). -/
def recApptLookup (defs : List RecDef) (aid : String) : Option RecDef :=
  defs.reverse.find? (fun a => a.id == aid)

/-- `pattern_map = {p['label']: p for p in patterns}` lookup (app.py:1712, 1728). -/
def patternLookup (pats : List Pattern) (lbl : String) : Option Pattern :=
  pats.reverse.find? (fun p => p.label == lbl)

/-- `slot_key.rsplit('_', 1)` (app.py:1259-1264): split at the last
underscore; a key without one becomes the truck name with an empty slot. -/
def splitSlotKey (s : String) : String × String :=
  let parts := s.splitOn "_"
  if parts.length ≤ 1 then (s, "")
  else (String.intercalate "_" parts.dropLast, parts.getLastD "")

/-- One exported CSV row of `download_schedule` (app.py:1269-1280). -/
structure OutRow where
  date : String
  truckName : String
  slot : String
  agency_number : String
  account_name : String
  area : String
  min_weight : Weight
  max_weight : Weight
  start_time : String
  end_time : String
deriving DecidableEq

/-- The row builder of `download_schedule` (app.py:1252-1280): one row per
assigned identifier that resolves to a definition, in map order. -/
def downloadScheduleRows (assignments : Sched) (appointments : List SpecDef) :
    List OutRow :=
  assignments.flatMap fun d =>
    d.2.flatMap fun s =>
      s.2.filterMap fun aid =>
        (apptLookup appointments aid).map fun appt =>
          ⟨d.1, (splitSlotKey s.1).1, (splitSlotKey s.1).2,
           appt.agency_number, appt.account_name, appt.area,
           appt.min_weight, appt.max_weight, appt.start_time, appt.end_time⟩

/-- `download_schedule` outcome (app.py:1281-1283): with no rows the user
gets the "nothing to download" message instead of a CSV file. -/
def downloadSchedule (assignments : Sched) (appointments : List SpecDef) :
    Except String (List OutRow) :=
  let rows := downloadScheduleRows assignments appointments
  if rows.isEmpty then Except.error "No appointments scheduled to download."
  else Except.ok rows

/-- One exported CSV row of `download_recurring_schedule` (app.py:1748-1761). -/
structure ROutRow where
  pattern : String
  frequency : String
  day : String
  truckName : String
  slot : String
  agency_number : String
  account_name : String
  area : String
  min_weight : Weight
  max_weight : Weight
  start_time : String
  end_time : String
deriving DecidableEq

/-- The row builder of `download_recurring_schedule` (app.py:1726-1761):
pattern labels absent from the derived pattern map are skipped wholesale;
otherwise one row per assigned identifier that resolves to a definition. -/
def downloadRecurringRows (assignments : Sched) (defs : List RecDef) :
    List ROutRow :=
  let pats := derivePatterns defs
  assignments.flatMap fun d =>
    match patternLookup pats d.1 with
    | none => []
    | some pat =>
      d.2.flatMap fun s =>
        s.2.filterMap fun aid =>
          (recApptLookup defs aid).map fun appt =>
            ⟨d.1, pat.frequency, pat.day,
             (splitSlotKey s.1).1, (splitSlotKey s.1).2,
             appt.agency_number, appt.account_name, appt.area,
             appt.min_weight, appt.max_weight,
             appt.start_time_str, appt.end_time_str⟩

/-- `download_recurring_schedule` outcome (app.py:1762-1764). -/
def downloadRecurringSchedule (assignments : Sched) (defs : List RecDef) :
    Except String (List ROutRow) :=
  let rows := downloadRecurringRows assignments defs
  if rows.isEmpty then Except.error "No recurring assignments to download."
  else Except.ok rows

/-- Total number of (grouping key, slot, identifier) assignment occurrences
in a saved assignment map. -/
def totalAssigned (m : Sched) : Nat :=
  (m.map fun d => (d.2.map fun s => s.2.length).sum).sum

/-- The validation failure kinds of the `recurring_upload` row loop
(app.py:1354-1373), in the order the code tests them. -/
inductive RowErrKind where
  | badDay
  | badFrequency
  | badTime
  | badOrder
deriving DecidableEq

/-- A row-level validation error: 0-based row index plus failure kind
(the flash message reports `Row {idx+2}` for the same index). -/
structure RowError where
  row : Nat
  kind : RowErrKind
deriving DecidableEq

/-- A raw recurring CSV row after column extraction: the time cells are
embedded as already-parsed `(hour, minute)` pairs, `none` standing for an
unparseable cell. -/
structure RawRecRow where
  agency_number : String
  account_name : String
  area : String
  min_weight : Weight
  max_weight : Weight
  day : String
  frequency : String
  startTime : Option (Nat × Nat)
  endTime : Option (Nat × Nat)
deriving DecidableEq

/-- `st_dt.hour + st_dt.minute/60.0` (app.py:1364-1365), in sixtieths of
an hour. -/
def hourVal (t : Nat × Nat) : Int :=
  (t.1 : Int) * 60 + (t.2 : Int)

/-- Zero-padded two-digit rendering used by `strftime('%H:%M')`. -/
def pad2 (n : Nat) : String :=
  if n < 10 then "0" ++ toString n else toString n

/-- `st_dt.strftime('%H:%M')` (app.py:1366-1367). -/
def fmtHM (t : Nat × Nat) : String :=
  pad2 t.1 ++ ":" ++ pad2 t.2

/-- Validation of one recurring CSV row, in the order of app.py:1354-1373:
day, then frequency, then time parsing, then time ordering; on success the
validated row carries derived hour values and normalized time strings. -/
def checkRecRow (r : RawRecRow) : Except RowErrKind NewRow :=
  if r.day ∈ weekdays then
    if r.frequency ∈ ordinals then
      match r.startTime, r.endTime with
      | some st, some et =>
        if hourVal st < hourVal et then
          Except.ok ⟨r.agency_number, r.account_name, r.area,
            r.min_weight, r.max_weight, r.day, r.frequency,
            hourVal st, hourVal et, fmtHM st, fmtHM et⟩
        else Except.error RowErrKind.badOrder
      | _, _ => Except.error RowErrKind.badTime
    else Except.error RowErrKind.badFrequency
  else Except.error RowErrKind.badDay

/-- The bulk row loop of `recurring_upload` (app.py:1341-1387): the first
failing row aborts the whole import with that row's error (the code flashes
the message and redirects immediately); only if every row validates is the
full list produced. -/
def processRecRows : Nat → List RawRecRow → Except RowError (List NewRow)
  | _, [] => Except.ok []
  | i, r :: rs =>
    match checkRecRow r with
    | Except.error k => Except.error ⟨i, k⟩
    | Except.ok v =>
      match processRecRows (i + 1) rs with
      | Except.error e => Except.error e
      | Except.ok vs => Except.ok (v :: vs)

/-- The row-level errors a bulk import outcome reports to the user. -/
def reportedErrors : Except RowError (List NewRow) → List RowError
  | Except.error e => [e]
  | Except.ok _ => []

/-- `s.split(':')` on the character list of a string. -/
def splitCols (sep : Char) : List Char → List (List Char)
  | [] => [[]]
  | x :: xs =>
    match splitCols sep xs with
    | [] => [[]]
    | y :: ys => if x = sep then [] :: y :: ys else (x :: y) :: ys

/-- The numeric value of a decimal digit character. -/
def charDigit? (ch : Char) : Option Nat :=
  if '0' ≤ ch ∧ ch ≤ '9' then some (ch.toNat - '0'.toNat) else none

/-- `int(...)` on a non-empty digit sequence. -/
def parseNat? : List Char → Option Nat
  | [] => none
  | l =>
    l.foldl
      (fun acc ch =>
        match acc, charDigit? ch with
        | some n, some d => some (n * 10 + d)
        | _, _ => none)
      (some 0)

/-- `int(...)` with an optional leading minus sign. -/
def parseInt? : List Char → Option Int
  | '-' :: rest => (parseNat? rest).map fun n => -(n : Int)
  | l => (parseNat? l).map fun n => (n : Int)

/-- `"HH:MM"`-style parse determining derived hour values: split at the
colon and read both components, as every write path of the code does
(`map(int, s.split(':'))` at app.py:429-437, `pd.to_datetime(..., '%H:%M')`
at app.py:707-710, `strftime`+`.hour/.minute` at app.py:1364-1367,
1497-1498). -/
def hourOfString (s : String) : Option Int :=
  match splitCols ':' s.data with
  | [h, m] =>
    match parseInt? h, parseInt? m with
    | some hv, some mv => some (hv * 60 + mv)
    | _, _ => none
  | _ => none

/-- The derivation invariant every write path maintains on stored recurring
definitions: the stored hour fields are the ones parsed back from the
stored time strings. -/
def derivedConsistent (r : NewRow) : Prop :=
  hourOfString r.start_time_str = some r.start_hour ∧
  hourOfString r.end_time_str = some r.end_hour

instance (r : NewRow) : Decidable (derivedConsistent r) := by
  unfold derivedConsistent; infer_instance

/-- Full field equality between a stored definition and an incoming row,
identifier excluded. -/
def fieldsEq (ex : RecDef) (r : NewRow) : Prop :=
  ex.toNewRow = r

instance (ex : RecDef) (r : NewRow) : Decidable (fieldsEq ex r) := by
  unfold fieldsEq; infer_instance

@[simp] theorem withId_toNewRow (r : NewRow) (i : String) :
    (r.withId i).toNewRow = r :=
  rfl

@[simp] theorem withId_id (r : NewRow) (i : String) :
    (r.withId i).id = i :=
  rfl

@[simp] theorem recKey_withId (r : NewRow) (i : String) :
    recKey (r.withId i) = natKey r :=
  rfl

theorem existingMapGet_eq_some {es : List RecDef} {k : NatKey} {ex : RecDef}
    (h : existingMapGet es k = some ex) : ex ∈ es ∧ recKey ex = k := by
  unfold existingMapGet at h
  refine ⟨List.mem_reverse.mp (List.mem_of_find?_eq_some h), ?_⟩
  have := List.find?_some h
  simpa using this

theorem existingMapGet_isSome_iff {es : List RecDef} {k : NatKey} :
    (existingMapGet es k).isSome ↔ ∃ e ∈ es, recKey e = k := by
  unfold existingMapGet
  rw [List.find?_isSome]
  constructor
  · rintro ⟨x, hx, hk⟩
    exact ⟨x, List.mem_reverse.mp hx, by simpa using hk⟩
  · rintro ⟨x, hx, hk⟩
    exact ⟨x, List.mem_reverse.mpr hx, by simpa using hk⟩

theorem existingMapGet_self {es : List RecDef} (hk : (es.map recKey).Nodup)
    {e : RecDef} (he : e ∈ es) : existingMapGet es (recKey e) = some e := by
  have hsome : (existingMapGet es (recKey e)).isSome :=
    existingMapGet_isSome_iff.mpr ⟨e, he, rfl⟩
  obtain ⟨ex, hex⟩ := Option.isSome_iff_exists.mp hsome
  obtain ⟨hmem, hkey⟩ := existingMapGet_eq_some hex
  have := List.inj_on_of_nodup_map hk hmem he hkey
  rw [hex, this]

theorem mergeRows_merged_map_key (f : Nat → String) (es : List RecDef)
    (c : Nat) (rs : List NewRow) :
    ((mergeRows f es c rs).merged).map recKey = rs.map natKey := by
  induction rs generalizing c with
  | nil => simp [mergeRows]
  | cons r rs ih =>
    simp only [mergeRows]
    cases h : existingMapGet es (natKey r) with
    | none => simp [ih]
    | some ex =>
      by_cases hw : weightsEq ex r <;> simp [hw, ih]

theorem mergeRows_ctr (f : Nat → String) (es : List RecDef)
    (c : Nat) (rs : List NewRow) :
    c ≤ (mergeRows f es c rs).ctr := by
  induction rs generalizing c with
  | nil => simp [mergeRows]
  | cons r rs ih =>
    simp only [mergeRows]
    cases h : existingMapGet es (natKey r) with
    | none => exact Nat.le_trans (Nat.le_succ c) (ih (c + 1))
    | some ex =>
      by_cases hw : weightsEq ex r
      · simpa [hw] using ih c
      · simpa [hw] using Nat.le_trans (Nat.le_succ c) (ih (c + 1))

theorem mergeRows_processed_iff (f : Nat → String) (es : List RecDef)
    (c : Nat) (rs : List NewRow) (k : NatKey) :
    k ∈ (mergeRows f es c rs).processedKeys ↔
      ∃ r ∈ rs, natKey r = k ∧ (existingMapGet es (natKey r)).isSome := by
  induction rs generalizing c with
  | nil => simp [mergeRows]
  | cons r rs ih =>
    simp only [mergeRows]
    cases h : existingMapGet es (natKey r) with
    | none =>
      simp only [ih, List.mem_cons]
      constructor
      · rintro ⟨r', hr', hk, hs⟩
        exact ⟨r', Or.inr hr', hk, hs⟩
      · rintro ⟨r', hr' | hr', hk, hs⟩
        · subst hr'; rw [h] at hs; simp at hs
        · exact ⟨r', hr', hk, hs⟩
    | some ex =>
      by_cases hw : weightsEq ex r <;>
      · simp only [hw, if_true, if_false, List.mem_cons, ih]
        constructor
        · rintro (hk | ⟨r', hr', hk, hs⟩)
          · exact ⟨r, Or.inl rfl, hk.symm, by rw [h]; rfl⟩
          · exact ⟨r', Or.inr hr', hk, hs⟩
        · rintro ⟨r', hr' | hr', hk, hs⟩
          · subst hr'; exact Or.inl hk.symm
          · exact Or.inr ⟨r', hr', hk, hs⟩

theorem mergeRows_replaced_mem (f : Nat → String) (es : List RecDef)
    (c : Nat) (rs : List NewRow) (i : String)
    (h : i ∈ (mergeRows f es c rs).replaced) :
    ∃ r ∈ rs, ∃ ex, existingMapGet es (natKey r) = some ex ∧
      ¬ weightsEq ex r ∧ i = ex.id := by
  induction rs generalizing c with
  | nil => simp [mergeRows] at h
  | cons r rs ih =>
    cases hm : existingMapGet es (natKey r) with
    | none =>
      simp only [mergeRows, hm] at h
      obtain ⟨r', hr', hrest⟩ := ih (c + 1) h
      exact ⟨r', List.mem_cons_of_mem _ hr', hrest⟩
    | some ex =>
      simp only [mergeRows, hm] at h
      by_cases hw : weightsEq ex r
      · rw [if_pos hw] at h
        obtain ⟨r', hr', hrest⟩ := ih c h
        exact ⟨r', List.mem_cons_of_mem _ hr', hrest⟩
      · rw [if_neg hw] at h
        rcases List.mem_cons.mp h with hi | hi
        · exact ⟨r, List.mem_cons_self _ _, ex, hm, hw, hi⟩
        · obtain ⟨r', hr', hrest⟩ := ih (c + 1) hi
          exact ⟨r', List.mem_cons_of_mem _ hr', hrest⟩

theorem mergeRows_merged_mem (f : Nat → String) (es : List RecDef)
    (c : Nat) (rs : List NewRow) (a : RecDef)
    (h : a ∈ (mergeRows f es c rs).merged) :
    (∃ r ∈ rs, ∃ ex, existingMapGet es (natKey r) = some ex ∧
      weightsEq ex r ∧ a = r.withId ex.id) ∨ (∃ j, a.id = f j) := by
  induction rs generalizing c with
  | nil => simp [mergeRows] at h
  | cons r rs ih =>
    cases hm : existingMapGet es (natKey r) with
    | none =>
      simp only [mergeRows, hm] at h
      rcases List.mem_cons.mp h with ha | ha
      · exact Or.inr ⟨c, by rw [ha]; rfl⟩
      · rcases ih (c + 1) ha with hl | hr
        · obtain ⟨r', hr', hrest⟩ := hl
          exact Or.inl ⟨r', List.mem_cons_of_mem _ hr', hrest⟩
        · exact Or.inr hr
    | some ex =>
      simp only [mergeRows, hm] at h
      by_cases hw : weightsEq ex r
      · rw [if_pos hw] at h
        rcases List.mem_cons.mp h with ha | ha
        · exact Or.inl ⟨r, List.mem_cons_self _ _, ex, hm, hw, ha⟩
        · rcases ih c ha with hl | hr
          · obtain ⟨r', hr', hrest⟩ := hl
            exact Or.inl ⟨r', List.mem_cons_of_mem _ hr', hrest⟩
          · exact Or.inr hr
      · rw [if_neg hw] at h
        rcases List.mem_cons.mp h with ha | ha
        · exact Or.inr ⟨c, by rw [ha]; rfl⟩
        · rcases ih (c + 1) ha with hl | hr
          · obtain ⟨r', hr', hrest⟩ := hl
            exact Or.inl ⟨r', List.mem_cons_of_mem _ hr', hrest⟩
          · exact Or.inr hr

theorem mergeReconcile_merged (f : Nat → String) (rs : List NewRow)
    (es : List RecDef) :
    (mergeReconcile f rs es).merged =
      (mergeRows f es 0 rs).merged ++
        es.filter
          (fun e => decide (recKey e ∉ (mergeRows f es 0 rs).processedKeys)) :=
  rfl

theorem mergeReconcile_replaced (f : Nat → String) (rs : List NewRow)
    (es : List RecDef) :
    (mergeReconcile f rs es).replaced = (mergeRows f es 0 rs).replaced :=
  rfl

theorem mergeReconcile_ctr (f : Nat → String) (rs : List NewRow)
    (es : List RecDef) :
    (mergeReconcile f rs es).ctr = (mergeRows f es 0 rs).ctr :=
  rfl

/-- With pairwise-distinct natural keys on both sides, the merged output
even has pairwise-distinct natural keys. -/
theorem mergeReconcile_keys_nodup (f : Nat → String) (rs : List NewRow)
    (es : List RecDef) (hek : (es.map recKey).Nodup)
    (hnk : (rs.map natKey).Nodup) :
    ((mergeReconcile f rs es).merged.map recKey).Nodup := by
  rw [mergeReconcile_merged, List.map_append, mergeRows_merged_map_key,
    List.nodup_append]
  refine ⟨hnk, hek.sublist ((List.filter_sublist es).map recKey), ?_⟩
  intro k hk1 hk2
  obtain ⟨e, he, hke⟩ := List.mem_map.mp hk2
  have hef := List.mem_filter.mp he
  have hnp : recKey e ∉ (mergeRows f es 0 rs).processedKeys :=
    of_decide_eq_true hef.2
  obtain ⟨r, hr, hkr⟩ := List.mem_map.mp hk1
  have hsome : (existingMapGet es (natKey r)).isSome := by
    rw [existingMapGet_isSome_iff]
    exact ⟨e, hef.1, by rw [hke, hkr]⟩
  have hproc : k ∈ (mergeRows f es 0 rs).processedKeys :=
    (mergeRows_processed_iff f es 0 rs k).mpr ⟨r, hr, hkr, hkr ▸ hsome⟩
  exact hnp (hke ▸ hproc)

theorem mergeRows_self (f : Nat → String) (es : List RecDef)
    (hk : (es.map recKey).Nodup)
    (hnum : ∀ e ∈ es, e.min_weight ≠ Weight.nan ∧ e.max_weight ≠ Weight.nan)
    (c : Nat) :
    ∀ ds : List RecDef, (∀ d ∈ ds, d ∈ es) →
      mergeRows f es c (ds.map RecDef.toNewRow) = ⟨ds, [], ds.map recKey, c⟩ := by
  intro ds
  induction ds generalizing c with
  | nil => intro _; simp [mergeRows]
  | cons d ds ih =>
    intro hsub
    have hd : d ∈ es := hsub d (List.mem_cons_self _ _)
    have hm : existingMapGet es (natKey d.toNewRow) = some d :=
      existingMapGet_self hk hd
    simp only [List.map_cons, mergeRows, hm]
    rw [if_pos ⟨weightEqB_self (hnum d hd).1, weightEqB_self (hnum d hd).2⟩,
      ih c (fun x hx => hsub x (List.mem_cons_of_mem _ hx))]
    rfl

/-- Concrete recurring row used in the example instances below. -/
def exRow : NewRow :=
  ⟨"1", "Acme", "North", Weight.num 0, Weight.num 100, "Monday", "First",
   7 * 60, 8 * 60, "07:00", "08:00"⟩

/-- The same natural key as `exRow` with a changed maximum weight. -/
def exRowChanged : NewRow :=
  { exRow with max_weight := Weight.num 150 }

/-- A stored definition for `exRow` under identifier `id-A`. -/
def exDefA : RecDef :=
  { toNewRow := exRow, id := "id-A" }

/-- A second stored definition with the same natural key as `exDefA` but a
distinct identifier, as produced by uploading a CSV with two identical rows
through `recurring_upload` (each row receives a fresh uuid, app.py:1374-1387). -/
def exDefA2 : RecDef :=
  { toNewRow := exRow, id := "id-B" }

/-- A concrete generated-identifier supply for the example instances. -/
def exFresh : Nat → String :=
  fun _ => "fresh-id"

/-- Claim C1, counterexample: as stated the claim fails.  The existing list `[exDefA, exDefA2]`
has pairwise-distinct identifiers (the claim's only hypothesis on it) and
the batch `[exRow, exRowChanged]` is validated, yet the merged output keeps
natural key of `exRow` under two surviving identifiers, and the replaced
identifier `id-B` survives in the merged output. -/
theorem C1_counterexample :
    (([exDefA, exDefA2] : List RecDef).map RecDef.id).Nodup ∧
    postNoDupKeyB (mergeReconcile exFresh [exRow, exRowChanged] [exDefA, exDefA2]).merged = false ∧
    postReplacedAbsentB (mergeReconcile exFresh [exRow, exRowChanged] [exDefA, exDefA2]) = false := by
  decide

/-- Claim C1 as amended: when additionally the existing definitions have
pairwise-distinct natural keys, the new batch has pairwise-distinct natural
keys, and generated identifiers never collide with stored ones, both spec
post-conditions hold: no natural key of the merged output survives under
more than one identifier, and no replaced identifier remains in the merged
output. -/
theorem C1_merge_postconditions (f : Nat → String) (rs : List NewRow)
    (es : List RecDef) (hek : (es.map recKey).Nodup)
    (hnk : (rs.map natKey).Nodup) (hid : (es.map RecDef.id).Nodup)
    (hf : ∀ j, f j ∉ es.map RecDef.id) :
    postNoDupKeyB (mergeReconcile f rs es).merged = true ∧
    postReplacedAbsentB (mergeReconcile f rs es) = true := by
  constructor
  · rw [postNoDupKeyB, List.all_eq_true]
    intro a ha
    rw [List.all_eq_true]
    intro b hb
    rw [decide_eq_true_iff]
    intro hkey
    have hn := mergeReconcile_keys_nodup f rs es hek hnk
    rw [List.inj_on_of_nodup_map hn ha hb hkey]
  · rw [postReplacedAbsentB, List.all_eq_true]
    intro i hi
    rw [List.all_eq_true]
    intro a ha
    rw [decide_eq_true_iff]
    rw [mergeReconcile_replaced] at hi
    obtain ⟨r, hr, ex, hex, hnw, hieq⟩ := mergeRows_replaced_mem f es 0 rs i hi
    obtain ⟨hexmem, hexkey⟩ := existingMapGet_eq_some hex
    subst hieq
    rw [mergeReconcile_merged] at ha
    intro heq
    rcases List.mem_append.mp ha with hnew | hold
    · rcases mergeRows_merged_mem f es 0 rs a hnew with
        ⟨r', hr', ex', hex', hw', haeq⟩ | ⟨j, hj⟩
      · rw [haeq, withId_id] at heq
        obtain ⟨hexmem', hexkey'⟩ := existingMapGet_eq_some hex'
        have hexeq : ex' = ex := List.inj_on_of_nodup_map hid hexmem' hexmem heq
        have hkk : natKey r' = natKey r := by rw [← hexkey', hexeq, hexkey]
        have hrr : r' = r := List.inj_on_of_nodup_map hnk hr' hr hkk
        rw [hrr, hexeq] at hw'
        exact hnw hw'
      · have hfj : f j = ex.id := by rw [← hj, heq]
        apply hf j
        rw [hfj]
        exact List.mem_map_of_mem RecDef.id hexmem
    · have haf := List.mem_filter.mp hold
      have haeq : a = ex := List.inj_on_of_nodup_map hid haf.1 hexmem heq
      have hnp : recKey a ∉ (mergeRows f es 0 rs).processedKeys :=
        of_decide_eq_true haf.2
      apply hnp
      rw [haeq, hexkey]
      exact (mergeRows_processed_iff f es 0 rs (natKey r)).mpr
        ⟨r, hr, rfl, by rw [hex]; rfl⟩

/-- Witness for the amended C1 at a concrete changed-weight re-upload. -/
theorem C1_merge_postconditions_witness :
    postNoDupKeyB (mergeReconcile exFresh [exRowChanged] [exDefA]).merged = true ∧
    postReplacedAbsentB (mergeReconcile exFresh [exRowChanged] [exDefA]) = true :=
  C1_merge_postconditions exFresh [exRowChanged] [exDefA]
    (by decide) (by decide) (by decide)
    (fun _ h => (by decide : ("fresh-id" : String) ∉ List.map RecDef.id [exDefA]) h)

/-- The example row with a blank (NaN) minimum-weight cell, as a blank CSV
weight cell produces through the unvalidated bulk paths. -/
def exRowNaN : NewRow :=
  { exRow with min_weight := Weight.nan }

/-- A stored definition carrying the NaN weight. -/
def exDefNaN : RecDef :=
  { toNewRow := exRowNaN, id := "id-N" }

/-- Claim C2, counterexample: as stated the claim fails.  The stored list
`[exDefNaN]` has pairwise-distinct natural keys, and the batch is its
field-identical, identifier-stripped image — yet because the blank weight
cell is NaN and Python's `NaN == NaN` is false, re-merging replaces the
row: the old identifier lands in the replaced set and a fresh identifier
is consumed. -/
theorem C2_counterexample :
    (([exDefNaN] : List RecDef).map recKey).Nodup ∧
    (mergeReconcile exFresh ([exDefNaN].map RecDef.toNewRow) [exDefNaN]).replaced =
      ["id-N"] ∧
    (mergeReconcile exFresh ([exDefNaN].map RecDef.toNewRow) [exDefNaN]).ctr = 1 := by
  decide

/-- Claim C2 as amended: for a stored list with pairwise-distinct natural
keys all of whose weight cells are actual numbers (not NaN), re-merging the
field-identical, identifier-stripped image reuses every existing identifier
(the merged output is the stored list itself), consumes no generated
identifiers, and produces an empty replaced list. -/
theorem C2_merge_idempotent (f : Nat → String) (es : List RecDef)
    (hk : (es.map recKey).Nodup)
    (hnum : ∀ e ∈ es, e.min_weight ≠ Weight.nan ∧ e.max_weight ≠ Weight.nan) :
    (mergeReconcile f (es.map RecDef.toNewRow) es).merged = es ∧
    (mergeReconcile f (es.map RecDef.toNewRow) es).replaced = [] ∧
    (mergeReconcile f (es.map RecDef.toNewRow) es).ctr = 0 := by
  have hm := mergeRows_self f es hk hnum 0 es (fun _ h => h)
  refine ⟨?_, ?_, ?_⟩
  · rw [mergeReconcile_merged, hm]
    have hfil : es.filter
        (fun e => decide (recKey e ∉ (MergeOut.mk es [] (es.map recKey) 0).processedKeys)) = [] := by
      rw [List.filter_eq_nil_iff]
      intro e he
      simp only [decide_eq_true_iff, not_not]
      exact List.mem_map_of_mem recKey he
    rw [hfil]
    simp
  · rw [mergeReconcile_replaced, hm]
  · rw [mergeReconcile_ctr, hm]

/-- Witness for C2 at a concrete one-element stored list. -/
theorem C2_merge_idempotent_witness :
    (mergeReconcile exFresh ([exDefA].map RecDef.toNewRow) [exDefA]).merged = [exDefA] ∧
    (mergeReconcile exFresh ([exDefA].map RecDef.toNewRow) [exDefA]).replaced = [] ∧
    (mergeReconcile exFresh ([exDefA].map RecDef.toNewRow) [exDefA]).ctr = 0 :=
  C2_merge_idempotent exFresh [exDefA] (by decide) (by decide)

/-- Natural-key equality plus weight equality forces full field equality,
provided both records satisfy the hour-derivation invariant: the remaining
non-key fields `start_hour`/`end_hour` are determined by the key's time
strings. -/
theorem fieldsEq_of_key_weights {ex : RecDef} {r : NewRow}
    (hk : recKey ex = natKey r)
    (hdx : derivedConsistent ex.toNewRow) (hdr : derivedConsistent r)
    (hw : weightsEq ex r) : fieldsEq ex r := by
  obtain ⟨⟨xa, xb, xc, xd, xe, xf, xg, xh, xi, xj, xk⟩, xid⟩ := ex
  obtain ⟨ra, rb, rc, rd, re, rf, rg, rh, ri, rj, rk⟩ := r
  simp only [recKey, natKey, NatKey.mk.injEq] at hk
  obtain ⟨e1, e2, e3, e4, e5, e6, e7⟩ := hk
  obtain ⟨hw1, hw2⟩ := hw
  simp only at hw1 hw2
  have hw1' := eq_of_weightEqB hw1
  have hw2' := eq_of_weightEqB hw2
  subst e1 e2 e3 e4 e5 e6 e7 hw1' hw2'
  obtain ⟨hx1, hx2⟩ := hdx
  obtain ⟨hr1, hr2⟩ := hdr
  simp only at hx1 hx2 hr1 hr2
  rw [hx1] at hr1
  rw [hx2] at hr2
  obtain rfl := Option.some.inj hr1
  obtain rfl := Option.some.inj hr2
  rfl

/-- Claim C3, counterexample: as stated the claim fails.  `exDefNaN` is a
reachable stored definition (blank weight cell, hour-derivation invariant
satisfied), the incoming row is its identifier-stripped image — every
non-identifier field is equal — and the natural key hits it, yet the merge
does not reuse the stored identifier: `NaN == NaN` is false, so the code's
weight comparison takes the replace branch. -/
theorem C3_counterexample :
    existingMapGet [exDefNaN] (natKey exRowNaN) = some exDefNaN ∧
    derivedConsistent exDefNaN.toNewRow ∧
    fieldsEq exDefNaN exRowNaN ∧
    (mergeReconcile exFresh [exRowNaN] [exDefNaN]).merged.head? ≠
      some (exRowNaN.withId exDefNaN.id) := by
  decide

/-- Claim C3 as amended: for a new row whose natural key hits a stored
definition whose weight cells are actual numbers (not NaN), the merge
reuses the stored identifier unchanged exactly when all non-identifier
fields agree — given the hour-derivation invariant that every write path of
the code maintains, the weight-only comparison the code performs is then
equivalent to full field comparison. -/
theorem C3_reuse_iff_fields_equal (f : Nat → String) (r : NewRow)
    (es : List RecDef) (ex : RecDef)
    (hm : existingMapGet es (natKey r) = some ex)
    (hdx : derivedConsistent ex.toNewRow) (hdr : derivedConsistent r)
    (hnum : ex.min_weight ≠ Weight.nan ∧ ex.max_weight ≠ Weight.nan)
    (hf : f 0 ≠ ex.id) :
    (mergeReconcile f [r] es).merged.head? = some (r.withId ex.id) ↔
      fieldsEq ex r := by
  have hkey : recKey ex = natKey r := (existingMapGet_eq_some hm).2
  rw [mergeReconcile_merged]
  by_cases hw : weightsEq ex r
  · simp only [mergeRows, hm, if_pos hw, List.cons_append, List.head?_cons,
      Option.some.injEq]
    constructor
    · intro _
      exact fieldsEq_of_key_weights hkey hdx hdr hw
    · intro _
      trivial
  · simp only [mergeRows, hm, if_neg hw, List.cons_append, List.head?_cons,
      Option.some.injEq]
    constructor
    · intro h
      have := congrArg RecDef.id h
      simp only [withId_id] at this
      exact absurd this hf
    · intro hfe
      refine absurd ⟨?_, ?_⟩ hw
      · rw [hfe] at hnum ⊢
        exact weightEqB_self hnum.1
      · rw [hfe] at hnum ⊢
        exact weightEqB_self hnum.2

/-- Witness for C3: the identical re-upload of `exDefA` reuses `id-A`. -/
theorem C3_reuse_iff_fields_equal_witness :
    ((mergeReconcile exFresh [exRow] [exDefA]).merged.head? =
      some (exRow.withId "id-A") ↔ fieldsEq exDefA exRow) ∧
    fieldsEq exDefA exRow :=
  ⟨C3_reuse_iff_fields_equal exFresh exRow [exDefA] exDefA
    (by decide) (by decide) (by decide) (by decide) (by decide), by decide⟩

/-- Claim C4: a natural-key hit whose fields differ gets a freshly generated
identifier, the stored definition's identifier is recorded as replaced, and
the merged output contains the incoming row's fields under the fresh
identifier. -/
theorem C4_changed_field (f : Nat → String) (r : NewRow)
    (es : List RecDef) (ex : RecDef)
    (hm : existingMapGet es (natKey r) = some ex)
    (hdx : derivedConsistent ex.toNewRow) (hdr : derivedConsistent r)
    (hne : ¬ fieldsEq ex r) :
    (mergeReconcile f [r] es).replaced = [ex.id] ∧
    r.withId (f 0) ∈ (mergeReconcile f [r] es).merged := by
  have hkey : recKey ex = natKey r := (existingMapGet_eq_some hm).2
  have hw : ¬ weightsEq ex r :=
    fun hw => hne (fieldsEq_of_key_weights hkey hdx hdr hw)
  constructor
  · rw [mergeReconcile_replaced]
    simp [mergeRows, hm, hw]
  · rw [mergeReconcile_merged]
    simp [mergeRows, hm, hw]

/-- Witness for C4: the spec's changed-max-weight example (100 to 150). -/
theorem C4_changed_field_witness :
    (mergeReconcile exFresh [exRowChanged] [exDefA]).replaced = ["id-A"] ∧
    exRowChanged.withId (exFresh 0) ∈
      (mergeReconcile exFresh [exRowChanged] [exDefA]).merged :=
  C4_changed_field exFresh exRowChanged [exDefA] exDefA
    (by decide) (by decide) (by decide) (by decide)

/-- Claim C5: a stored definition whose natural key is absent from the new batch
survives the merge unchanged (same identifier and fields) and contributes
nothing to the replaced set. -/
theorem C5_untouched_preserved (f : Nat → String) (rs : List NewRow)
    (es : List RecDef) (hid : (es.map RecDef.id).Nodup)
    (e : RecDef) (he : e ∈ es) (hk : recKey e ∉ rs.map natKey) :
    e ∈ (mergeReconcile f rs es).merged ∧
    e.id ∉ (mergeReconcile f rs es).replaced := by
  constructor
  · rw [mergeReconcile_merged]
    apply List.mem_append_right
    apply List.mem_filter.mpr
    refine ⟨he, decide_eq_true ?_⟩
    intro hp
    obtain ⟨r, hr, hkr, _⟩ := (mergeRows_processed_iff f es 0 rs (recKey e)).mp hp
    exact hk (hkr ▸ List.mem_map_of_mem natKey hr)
  · rw [mergeReconcile_replaced]
    intro hi
    obtain ⟨r, hr, ex, hex, _, hieq⟩ := mergeRows_replaced_mem f es 0 rs e.id hi
    obtain ⟨hexmem, hexkey⟩ := existingMapGet_eq_some hex
    have heex : e = ex := List.inj_on_of_nodup_map hid he hexmem hieq
    apply hk
    rw [heex, hexkey]
    exact List.mem_map_of_mem natKey hr

/-- A second stored definition with a different natural key, untouched by
the example batches. -/
def exDefB : RecDef :=
  { toNewRow := { exRow with day := "Tuesday", account_name := "Beta" },
    id := "id-C" }

/-- Witness for C5: the spec's existing `[A, B]` versus new `[A']` example,
with `A'` field-identical to `A`; `B` survives unchanged and is not
replaced. -/
theorem C5_untouched_preserved_witness :
    exDefB ∈ (mergeReconcile exFresh [exRow] [exDefA, exDefB]).merged ∧
    exDefB.id ∉ (mergeReconcile exFresh [exRow] [exDefA, exDefB]).replaced :=
  C5_untouched_preserved exFresh [exRow] [exDefA, exDefB]
    (by decide) exDefB (by decide) (by decide)

theorem cleanIdList_fst (aid : String) (ids : List String) :
    (cleanIdList aid ids).1 = ids.filter (fun i => i != aid) := by
  unfold cleanIdList
  split
  · rfl
  · next h =>
    refine (List.filter_eq_self.mpr fun a ha => ?_).symm
    rw [bne_iff_ne]
    intro hne
    exact h (hne ▸ ha)

theorem cleanIdList_snd (aid : String) (ids : List String) :
    (cleanIdList aid ids).2 = true ↔ aid ∈ ids := by
  unfold cleanIdList
  split <;> simp_all

theorem cleanSlots_fst (aid : String) (slots : List (String × List String)) :
    (cleanSlots aid slots).1 =
      slots.map (fun s => (s.1, s.2.filter (fun i => i != aid))) := by
  induction slots with
  | nil => rfl
  | cons s rest ih => simp [cleanSlots, cleanIdList_fst, ih]

theorem cleanSlots_snd (aid : String) (slots : List (String × List String)) :
    (cleanSlots aid slots).2 = true ↔ ∃ s ∈ slots, aid ∈ s.2 := by
  induction slots with
  | nil => simp [cleanSlots]
  | cons s rest ih =>
    simp only [cleanSlots, Bool.or_eq_true, cleanIdList_snd, ih,
      List.mem_cons]
    constructor
    · rintro (hs | ⟨s', hs', ha⟩)
      · exact ⟨s, Or.inl rfl, hs⟩
      · exact ⟨s', Or.inr hs', ha⟩
    · rintro ⟨s', hs' | hs', ha⟩
      · exact Or.inl (hs' ▸ ha)
      · exact Or.inr ⟨s', hs', ha⟩

theorem cleanSchedule_fst (aid : String) (sched : Sched) :
    (cleanSchedule aid sched).1 =
      sched.map (fun d =>
        (d.1, d.2.map (fun s => (s.1, s.2.filter (fun i => i != aid))))) := by
  induction sched with
  | nil => rfl
  | cons d rest ih => simp [cleanSchedule, cleanSlots_fst, ih]

theorem cleanSchedule_snd (aid : String) (sched : Sched) :
    (cleanSchedule aid sched).2 = true ↔
      ∃ d ∈ sched, ∃ s ∈ d.2, aid ∈ s.2 := by
  induction sched with
  | nil => simp [cleanSchedule]
  | cons d rest ih =>
    simp only [cleanSchedule, Bool.or_eq_true, cleanSlots_snd, ih,
      List.mem_cons]
    constructor
    · rintro (⟨s, hs, ha⟩ | ⟨d', hd', hrest⟩)
      · exact ⟨d, Or.inl rfl, s, hs, ha⟩
      · exact ⟨d', Or.inr hd', hrest⟩
    · rintro ⟨d', hd' | hd', hrest⟩
      · exact Or.inl (hd' ▸ hrest)
      · exact Or.inr ⟨d', hd', hrest⟩

/-- Claim C7: when the identifier is present among the definitions, the delete
pipeline filters that identifier out of every slot sequence of every
date/pattern (preserving the relative order of the remaining identifiers,
as a filter does), re-persists the assignment document exactly when some
slot contained the identifier, and leaves no dangling reference to it. -/
theorem C7_delete_cleans_assignments {α : Type} (getId : α → String)
    (aid : String) (defs : List α) (sched : Sched)
    (h : ∃ a ∈ defs, getId a = aid) :
    (deleteAppointment getId aid defs sched).sched =
      sched.map (fun d =>
        (d.1, d.2.map (fun s => (s.1, s.2.filter (fun i => i != aid))))) ∧
    ((deleteAppointment getId aid defs sched).schedWritten = true ↔
      ∃ d ∈ sched, ∃ s ∈ d.2, aid ∈ s.2) ∧
    (∀ d ∈ (deleteAppointment getId aid defs sched).sched,
      ∀ s ∈ d.2, aid ∉ s.2) := by
  obtain ⟨a, ha, haid⟩ := h
  have hlen : ¬ (defs.filter (fun a => getId a != aid)).length = defs.length := by
    intro heq
    have := List.filter_length_eq_length.mp heq a ha
    rw [haid] at this
    simp at this
  have hsched : (deleteAppointment getId aid defs sched).sched =
      sched.map (fun d =>
        (d.1, d.2.map (fun s => (s.1, s.2.filter (fun i => i != aid))))) ∧
      ((deleteAppointment getId aid defs sched).schedWritten = true ↔
        ∃ d ∈ sched, ∃ s ∈ d.2, aid ∈ s.2) := by
    unfold deleteAppointment
    rw [if_neg hlen]
    by_cases hm : (cleanSchedule aid sched).2 = true
    · rw [if_pos hm]
      refine ⟨cleanSchedule_fst aid sched, ?_⟩
      constructor
      · intro _
        exact (cleanSchedule_snd aid sched).mp hm
      · intro _
        rfl
    · rw [if_neg hm]
      have hno : ¬ ∃ d ∈ sched, ∃ s ∈ d.2, aid ∈ s.2 :=
        fun hex => hm ((cleanSchedule_snd aid sched).mpr hex)
      constructor
      · show sched = _
        symm
        have hmap : ∀ d ∈ sched,
            (fun d : String × List (String × List String) =>
              (d.1, d.2.map (fun s => (s.1, s.2.filter (fun i => i != aid))))) d = d := by
          intro d hd
          have h2 : ∀ s ∈ d.2,
              (fun s : String × List String =>
                (s.1, s.2.filter (fun i => i != aid))) s = s := by
            intro s hs
            have h3 : s.2.filter (fun i => i != aid) = s.2 := by
              refine List.filter_eq_self.mpr fun i hi => ?_
              rw [bne_iff_ne]
              intro hia
              exact hno ⟨d, hd, s, hs, hia ▸ hi⟩
            simp only [h3]
          simp only [List.map_congr_left h2, List.map_id']
        exact (List.map_congr_left hmap).trans (List.map_id' sched)
      · constructor
        · intro hft
          exact absurd hft (by simp)
        · intro hex
          exact absurd hex hno
  refine ⟨hsched.1, hsched.2, ?_⟩
  intro d hd s hs hmem
  rw [hsched.1] at hd
  obtain ⟨d', _, hd'⟩ := List.mem_map.mp hd
  rcases hd' with rfl
  obtain ⟨s', _, hs'⟩ := List.mem_map.mp hs
  rcases hs' with rfl
  have := (List.mem_filter.mp hmem).2
  simp at this

/-- An example saved assignment map. -/
def exSched : Sched :=
  [("First Monday", [("Trailer 1_A", ["id-A", "id-X"]), ("Trailer 2_B", [])]),
   ("Second Monday", [("Straight 1_A", ["id-X"])])]

/-- Witness for C7 at a concrete delete of `id-A`. -/
theorem C7_delete_cleans_assignments_witness :
    (deleteAppointment RecDef.id "id-A" [exDefA] exSched).sched =
      exSched.map (fun d =>
        (d.1, d.2.map (fun s => (s.1, s.2.filter (fun i => i != "id-A"))))) ∧
    ((deleteAppointment RecDef.id "id-A" [exDefA] exSched).schedWritten = true ↔
      ∃ d ∈ exSched, ∃ s ∈ d.2, "id-A" ∈ s.2) ∧
    (∀ d ∈ (deleteAppointment RecDef.id "id-A" [exDefA] exSched).sched,
      ∀ s ∈ d.2, "id-A" ∉ s.2) :=
  C7_delete_cleans_assignments RecDef.id "id-A" [exDefA] exSched
    ⟨exDefA, by decide, by decide⟩

/-- Claim C10: deleting an identifier absent from the stored definitions is
atomic on error: the outcome reports not-found, neither document changes,
and neither document is written. -/
theorem C10_delete_not_found_atomic {α : Type} (getId : α → String)
    (aid : String) (defs : List α) (sched : Sched)
    (h : ∀ a ∈ defs, getId a ≠ aid) :
    deleteAppointment getId aid defs sched = ⟨defs, sched, false, false, false⟩ := by
  unfold deleteAppointment
  rw [if_pos]
  rw [List.filter_eq_self.mpr fun a ha => bne_iff_ne.mpr (h a ha)]

/-- Witness for C10 at a concrete absent identifier. -/
theorem C10_delete_not_found_atomic_witness :
    deleteAppointment RecDef.id "ghost" [exDefA] exSched =
      ⟨[exDefA], exSched, false, false, false⟩ :=
  C10_delete_not_found_atomic RecDef.id "ghost" [exDefA] exSched
    (by decide)

instance {ε α : Type} [DecidableEq ε] [DecidableEq α] :
    DecidableEq (Except ε α) := fun a b =>
  match a, b with
  | Except.error x, Except.error y =>
    if h : x = y then isTrue (by rw [h])
    else isFalse fun hc => h (by injection hc)
  | Except.ok x, Except.ok y =>
    if h : x = y then isTrue (by rw [h])
    else isFalse fun hc => h (by injection hc)
  | Except.error _, Except.ok _ => isFalse fun hc => Except.noConfusion hc
  | Except.ok _, Except.error _ => isFalse fun hc => Except.noConfusion hc

/-- A raw CSV row with an invalid weekday. -/
def exBadDayRow : RawRecRow :=
  ⟨"1", "Acme", "North", Weight.num 0, Weight.num 100, "Funday", "First",
   some (7, 0), some (8, 0)⟩

/-- A raw CSV row with an invalid ordinal frequency. -/
def exBadFreqRow : RawRecRow :=
  ⟨"2", "Beta", "South", Weight.num 0, Weight.num 100, "Monday", "Sixth",
   some (7, 0), some (8, 0)⟩

/-- A raw CSV row that validates. -/
def exGoodRow : RawRecRow :=
  ⟨"1", "Acme", "North", Weight.num 0, Weight.num 100, "Monday", "First",
   some (7, 0), some (8, 0)⟩

/-- Claim C8, counterexample: as stated the claim fails for the bulk recurring CSV import.  On a
batch whose first and second rows are both invalid (bad day, then bad
frequency), the import reports only the first row's error: the second
row's error is not part of the outcome, although that row is invalid. -/
theorem C8_counterexample :
    checkRecRow exBadFreqRow = Except.error RowErrKind.badFrequency ∧
    RowError.mk 1 RowErrKind.badFrequency ∉
      reportedErrors (processRecRows 0 [exBadDayRow, exBadFreqRow]) := by
  decide

/-- Claim C8 as amended: the bulk recurring CSV import is fail-fast.  If every
row before position `pre.length` validates and the row there fails with
kind `k`, processing the whole batch stops at that row and reports exactly
its error, regardless of the rows after it. -/
theorem C8_bulk_fail_fast (i : Nat) (pre : List RawRecRow) (r : RawRecRow)
    (rest : List RawRecRow) (k : RowErrKind)
    (hpre : ∀ x ∈ pre, (checkRecRow x).isOk = true)
    (hr : checkRecRow r = Except.error k) :
    processRecRows i (pre ++ r :: rest) = Except.error ⟨i + pre.length, k⟩ := by
  induction pre generalizing i with
  | nil =>
    simp only [List.nil_append, processRecRows, hr, List.length_nil,
      Nat.add_zero]
  | cons x xs ih =>
    have hx : (checkRecRow x).isOk = true := hpre x (List.mem_cons_self _ _)
    obtain ⟨v, hv⟩ : ∃ v, checkRecRow x = Except.ok v := by
      cases hcx : checkRecRow x with
      | error e => rw [hcx] at hx; simp [Except.isOk, Except.toBool] at hx
      | ok v => exact ⟨v, rfl⟩
    have htail := ih (i + 1) (fun y hy => hpre y (List.mem_cons_of_mem _ hy))
    simp only [List.cons_append, processRecRows, hv, List.append_eq, htail,
      List.length_cons]
    rw [show i + 1 + xs.length = i + (xs.length + 1) from by omega]

/-- Witness for the amended C8: a valid first row followed by an invalid
second row yields exactly the second row's error. -/
theorem C8_bulk_fail_fast_witness :
    processRecRows 0 [exGoodRow, exBadFreqRow] =
      Except.error ⟨0 + [exGoodRow].length, RowErrKind.badFrequency⟩ :=
  C8_bulk_fail_fast 0 [exGoodRow] exBadFreqRow [] RowErrKind.badFrequency
    (by decide) (by decide)

theorem length_filterMap_of_isSome {α β : Type} (f : α → Option β)
    (l : List α) (h : ∀ x ∈ l, (f x).isSome) :
    (l.filterMap f).length = l.length := by
  induction l with
  | nil => rfl
  | cons x xs ih =>
    obtain ⟨b, hb⟩ := Option.isSome_iff_exists.mp (h x (List.mem_cons_self _ _))
    rw [List.filterMap_cons_some hb, List.length_cons, List.length_cons,
      ih fun y hy => h y (List.mem_cons_of_mem _ hy)]

theorem length_flatMap_eq_sum {α β : Type} (l : List α) (F : α → List β)
    (g : α → Nat) (h : ∀ x ∈ l, (F x).length = g x) :
    (l.flatMap F).length = (l.map g).sum := by
  induction l with
  | nil => rfl
  | cons x xs ih =>
    rw [List.flatMap_cons, List.length_append, List.map_cons, List.sum_cons,
      h x (List.mem_cons_self _ _), ih fun y hy => h y (List.mem_cons_of_mem _ hy)]

theorem downloadScheduleRows_length (asg : Sched) (defs : List SpecDef)
    (h : ∀ d ∈ asg, ∀ s ∈ d.2, ∀ aid ∈ s.2, (apptLookup defs aid).isSome) :
    (downloadScheduleRows asg defs).length = totalAssigned asg := by
  unfold downloadScheduleRows totalAssigned
  refine length_flatMap_eq_sum _ _ _ fun d hd => ?_
  refine length_flatMap_eq_sum _ _ _ fun s hs => ?_
  refine length_filterMap_of_isSome _ _ fun aid ha => ?_
  rw [Option.isSome_map']
  exact h d hd s hs aid ha

theorem downloadRecurringRows_length (rasg : Sched) (rdefs : List RecDef)
    (h2 : ∀ d ∈ rasg, (patternLookup (derivePatterns rdefs) d.1).isSome)
    (h3 : ∀ d ∈ rasg, ∀ s ∈ d.2, ∀ aid ∈ s.2, (recApptLookup rdefs aid).isSome) :
    (downloadRecurringRows rasg rdefs).length = totalAssigned rasg := by
  unfold downloadRecurringRows totalAssigned
  refine length_flatMap_eq_sum _ _ _ fun d hd => ?_
  obtain ⟨pat, hpat⟩ := Option.isSome_iff_exists.mp (h2 d hd)
  rw [hpat]
  refine length_flatMap_eq_sum _ _ _ fun s hs => ?_
  refine length_filterMap_of_isSome _ _ fun aid ha => ?_
  rw [Option.isSome_map']
  exact h3 d hd s hs aid ha

/-- Claim C9: under the spec's assignment-map invariant (every referenced
identifier resolves to a definition, and, for the recurring export, every
pattern label of the map is a derived pattern label), both exports produce
exactly one output row per (grouping key, slot, identifier) occurrence of
the saved assignment map; a map with no assigned identifiers produces the
"nothing to export" outcome instead of a CSV. -/
theorem C9_export_rows (asg : Sched) (defs : List SpecDef)
    (rasg : Sched) (rdefs : List RecDef)
    (h1 : ∀ d ∈ asg, ∀ s ∈ d.2, ∀ aid ∈ s.2, (apptLookup defs aid).isSome)
    (h2 : ∀ d ∈ rasg, (patternLookup (derivePatterns rdefs) d.1).isSome)
    (h3 : ∀ d ∈ rasg, ∀ s ∈ d.2, ∀ aid ∈ s.2, (recApptLookup rdefs aid).isSome) :
    (downloadScheduleRows asg defs).length = totalAssigned asg ∧
    (totalAssigned asg = 0 →
      downloadSchedule asg defs =
        Except.error "No appointments scheduled to download.") ∧
    (downloadRecurringRows rasg rdefs).length = totalAssigned rasg ∧
    (totalAssigned rasg = 0 →
      downloadRecurringSchedule rasg rdefs =
        Except.error "No recurring assignments to download.") := by
  have hs := downloadScheduleRows_length asg defs h1
  have hr := downloadRecurringRows_length rasg rdefs h2 h3
  refine ⟨hs, ?_, hr, ?_⟩
  · intro h0
    have : (downloadScheduleRows asg defs).length = 0 := by rw [hs, h0]
    have hnil := List.length_eq_zero.mp this
    unfold downloadSchedule
    rw [hnil]
    rfl
  · intro h0
    have : (downloadRecurringRows rasg rdefs).length = 0 := by rw [hr, h0]
    have hnil := List.length_eq_zero.mp this
    unfold downloadRecurringSchedule
    rw [hnil]
    rfl

/-- An example stored specific-date definition. -/
def exSpecDef : SpecDef :=
  ⟨"id-A", "1", "Acme", "North", Weight.num 0, Weight.num 100,
   "2025-01-06T07:00:00", "2025-01-06T08:00:00", 7 * 60⟩

/-- Witness for C9 at concrete one-assignment maps for both exports. -/
theorem C9_export_rows_witness :
    (downloadScheduleRows [("2025-01-06", [("Trailer 1_A", ["id-A"])])]
      [exSpecDef]).length =
      totalAssigned [("2025-01-06", [("Trailer 1_A", ["id-A"])])] ∧
    (totalAssigned [("2025-01-06", [("Trailer 1_A", ["id-A"])])] = 0 →
      downloadSchedule [("2025-01-06", [("Trailer 1_A", ["id-A"])])]
        [exSpecDef] =
        Except.error "No appointments scheduled to download.") ∧
    (downloadRecurringRows [("First Monday", [("Trailer 1_A", ["id-A"])])]
      [exDefA]).length =
      totalAssigned [("First Monday", [("Trailer 1_A", ["id-A"])])] ∧
    (totalAssigned [("First Monday", [("Trailer 1_A", ["id-A"])])] = 0 →
      downloadRecurringSchedule
        [("First Monday", [("Trailer 1_A", ["id-A"])])] [exDefA] =
        Except.error "No recurring assignments to download.") :=
  C9_export_rows [("2025-01-06", [("Trailer 1_A", ["id-A"])])] [exSpecDef]
    [("First Monday", [("Trailer 1_A", ["id-A"])])] [exDefA]
    (by decide) (by decide) (by decide)

/-- Validity of a definitions list for pattern derivation: every day and
frequency belongs to its fixed enumeration. -/
def validDefs (defs : List RecDef) : Prop :=
  ∀ a ∈ defs, a.day ∈ weekdays ∧ a.frequency ∈ ordinals

/-- The flattened numeric sort key: since a weekday index is at most 7,
`oi * 8 + wi` orders exactly like the lexicographic pair `(oi, wi)`. -/
def patKeyN (p : Pattern) : Nat :=
  (ordinals.indexOf p.frequency) * 8 + weekdays.indexOf p.day

theorem patternLe_iff (p q : Pattern) :
    PatLe p q ↔ patKeyN p ≤ patKeyN q := by
  have hp : weekdays.indexOf p.day ≤ weekdays.length := List.indexOf_le_length
  have hq : weekdays.indexOf q.day ≤ weekdays.length := List.indexOf_le_length
  have hlen : weekdays.length = 7 := rfl
  unfold PatLe patternLe patKeyN
  simp only [Bool.or_eq_true, Bool.and_eq_true, decide_eq_true_eq, beq_iff_eq]
  omega

instance : IsTotal Pattern PatLe :=
  ⟨fun p q => by
    rw [patternLe_iff, patternLe_iff]
    omega⟩

instance : IsTrans Pattern PatLe :=
  ⟨fun a b c hab hbc => by
    rw [patternLe_iff] at hab hbc ⊢
    omega⟩

theorem label_inj_aux :
    (ordinals.all fun f1 => weekdays.all fun d1 =>
      ordinals.all fun f2 => weekdays.all fun d2 =>
        decide (f1 ++ " " ++ d1 = f2 ++ " " ++ d2 → f1 = f2 ∧ d1 = d2)) = true := by
  decide

/-- Over the fixed enumerations, the label `f ++ " " ++ d` determines the
pair `(f, d)`. -/
theorem label_inj {f1 d1 f2 d2 : String}
    (hf1 : f1 ∈ ordinals) (hd1 : d1 ∈ weekdays)
    (hf2 : f2 ∈ ordinals) (hd2 : d2 ∈ weekdays)
    (h : f1 ++ " " ++ d1 = f2 ++ " " ++ d2) : f1 = f2 ∧ d1 = d2 := by
  have haux := label_inj_aux
  rw [List.all_eq_true] at haux
  have h1 := haux f1 hf1
  rw [List.all_eq_true] at h1
  have h2 := h1 d1 hd1
  rw [List.all_eq_true] at h2
  have h3 := h2 f2 hf2
  rw [List.all_eq_true] at h3
  have h4 := h3 d2 hd2
  rw [decide_eq_true_eq] at h4
  exact h4 h

theorem dedupe_labels_nodup (seen : List String) (defs : List RecDef) :
    ((dedupePatterns seen defs).map Pattern.label).Nodup ∧
    ∀ l ∈ (dedupePatterns seen defs).map Pattern.label, l ∉ seen := by
  induction defs generalizing seen with
  | nil => exact ⟨List.nodup_nil, by simp [dedupePatterns]⟩
  | cons a rest ih =>
    by_cases hmem : (a.frequency ++ " " ++ a.day) ∈ seen
    · simpa [dedupePatterns, hmem] using ih seen
    · have ihh := ih ((a.frequency ++ " " ++ a.day) :: seen)
      simp only [dedupePatterns, if_neg hmem, List.map_cons]
      constructor
      · rw [List.nodup_cons]
        exact ⟨fun hc => (ihh.2 _ hc) (List.mem_cons_self _ _), ihh.1⟩
      · intro l hl
        rcases List.mem_cons.mp hl with rfl | hl'
        · exact hmem
        · intro hseen
          exact (ihh.2 l hl') (List.mem_cons_of_mem _ hseen)

theorem mem_dedupe_exists (seen : List String) (defs : List RecDef)
    (p : Pattern) (hp : p ∈ dedupePatterns seen defs) :
    ∃ a ∈ defs, patternOf a = p := by
  induction defs generalizing seen with
  | nil => simp [dedupePatterns] at hp
  | cons a rest ih =>
    by_cases hmem : (a.frequency ++ " " ++ a.day) ∈ seen
    · simp only [dedupePatterns, if_pos hmem] at hp
      obtain ⟨b, hb, hpb⟩ := ih seen hp
      exact ⟨b, List.mem_cons_of_mem _ hb, hpb⟩
    · simp only [dedupePatterns, if_neg hmem] at hp
      rcases List.mem_cons.mp hp with rfl | hp'
      · exact ⟨a, List.mem_cons_self _ _, rfl⟩
      · obtain ⟨b, hb, hpb⟩ := ih _ hp'
        exact ⟨b, List.mem_cons_of_mem _ hb, hpb⟩

theorem patternOf_mem_dedupe : ∀ defs : List RecDef, validDefs defs →
    ∀ a ∈ defs, ∀ seen : List String,
      patternOf a ∈ dedupePatterns seen defs ∨ (patternOf a).label ∈ seen := by
  intro defs
  induction defs with
  | nil =>
    intro _ a ha
    exact absurd ha (List.not_mem_nil a)
  | cons b rest ih =>
    intro hv a ha seen
    have hvrest : validDefs rest := fun x hx => hv x (List.mem_cons_of_mem _ hx)
    by_cases hmem : (b.frequency ++ " " ++ b.day) ∈ seen
    · rcases List.mem_cons.mp ha with rfl | ha'
      · exact Or.inr hmem
      · rcases ih hvrest a ha' seen with hin | hseen
        · left
          simp only [dedupePatterns, if_pos hmem]
          exact hin
        · exact Or.inr hseen
    · simp only [dedupePatterns, if_neg hmem]
      rcases List.mem_cons.mp ha with rfl | ha'
      · exact Or.inl (List.mem_cons_self _ _)
      · rcases ih hvrest a ha' ((b.frequency ++ " " ++ b.day) :: seen) with hin | hseen
        · exact Or.inl (List.mem_cons_of_mem _ hin)
        · rcases List.mem_cons.mp hseen with heq | hseen'
          · left
            have hva := hv a (List.mem_cons_of_mem _ ha')
            have hvb := hv b (List.mem_cons_self _ _)
            obtain ⟨hfeq, hdeq⟩ := label_inj hva.2 hva.1 hvb.2 hvb.1 heq
            have hab : patternOf a = patternOf b := by
              unfold patternOf
              rw [hfeq, hdeq]
            rw [hab]
            exact List.mem_cons_self _ _
          · exact Or.inr hseen'

theorem mem_dedupe_iff (defs : List RecDef) (hv : validDefs defs)
    (p : Pattern) :
    p ∈ dedupePatterns [] defs ↔ ∃ a ∈ defs, patternOf a = p := by
  constructor
  · exact mem_dedupe_exists [] defs p
  · rintro ⟨a, ha, rfl⟩
    rcases patternOf_mem_dedupe defs hv a ha [] with h | h
    · exact h
    · exact absurd h (List.not_mem_nil _)

theorem dedupe_perm (defs defs' : List RecDef) (hv : validDefs defs)
    (hp : defs.Perm defs') :
    (dedupePatterns [] defs).Perm (dedupePatterns [] defs') := by
  have hv' : validDefs defs' := fun a ha => hv a (hp.symm.subset ha)
  rw [List.perm_ext_iff_of_nodup
    (List.Nodup.of_map _ (dedupe_labels_nodup [] defs).1)
    (List.Nodup.of_map _ (dedupe_labels_nodup [] defs').1)]
  intro p
  rw [mem_dedupe_iff defs hv p, mem_dedupe_iff defs' hv' p]
  constructor
  · rintro ⟨a, ha, hpa⟩
    exact ⟨a, hp.subset ha, hpa⟩
  · rintro ⟨a, ha, hpa⟩
    exact ⟨a, hp.symm.subset ha, hpa⟩

theorem derivePatterns_valid (defs : List RecDef) (hv : validDefs defs)
    (p : Pattern) (hp : p ∈ derivePatterns defs) :
    p.frequency ∈ ordinals ∧ p.day ∈ weekdays ∧
      p.label = p.frequency ++ " " ++ p.day := by
  have hp' : p ∈ dedupePatterns [] defs :=
    (List.perm_insertionSort PatLe _).mem_iff.mp hp
  obtain ⟨a, ha, hpa⟩ := mem_dedupe_exists [] defs p hp'
  obtain ⟨hd, hf⟩ := hv a ha
  rw [← hpa]
  exact ⟨hf, hd, rfl⟩

theorem pattern_eq_of_key_eq {p q : Pattern}
    (hpf : p.frequency ∈ ordinals) (hpd : p.day ∈ weekdays)
    (hpl : p.label = p.frequency ++ " " ++ p.day)
    (hqf : q.frequency ∈ ordinals) (hqd : q.day ∈ weekdays)
    (hql : q.label = q.frequency ++ " " ++ q.day)
    (hk : patKeyN p = patKeyN q) : p = q := by
  have hp : weekdays.indexOf p.day ≤ weekdays.length := List.indexOf_le_length
  have hq : weekdays.indexOf q.day ≤ weekdays.length := List.indexOf_le_length
  have hlen : weekdays.length = 7 := rfl
  unfold patKeyN at hk
  have hoi : ordinals.indexOf p.frequency = ordinals.indexOf q.frequency := by
    omega
  have hwi : weekdays.indexOf p.day = weekdays.indexOf q.day := by
    omega
  have hf : p.frequency = q.frequency := (List.indexOf_inj hpf hqf).mp hoi
  have hd : p.day = q.day := (List.indexOf_inj hpd hqd).mp hwi
  obtain ⟨pl, pf, pd⟩ := p
  obtain ⟨ql, qf, qd⟩ := q
  simp only at hf hd hpl hql
  subst hf hd hpl hql
  rfl

theorem derivePatterns_pairwise_lt (defs : List RecDef) (hv : validDefs defs) :
    (derivePatterns defs).Pairwise (fun p q => patKeyN p < patKeyN q) := by
  have hsort : (derivePatterns defs).Pairwise PatLe :=
    List.sorted_insertionSort PatLe _
  have hnd : (derivePatterns defs).Nodup :=
    (List.perm_insertionSort PatLe _).symm.nodup
      (List.Nodup.of_map _ (dedupe_labels_nodup [] defs).1)
  have hcomb := hsort.and hnd
  refine List.Pairwise.imp_of_mem ?_ hcomb
  intro p q hp hq hpq
  obtain ⟨hple, hpne⟩ := hpq
  have hle := (patternLe_iff p q).mp hple
  rcases Nat.lt_or_ge (patKeyN p) (patKeyN q) with hlt | hge
  · exact hlt
  · exfalso
    have hkeq : patKeyN p = patKeyN q := Nat.le_antisymm hle hge
    obtain ⟨hvf, hvd, hvl⟩ := derivePatterns_valid defs hv p hp
    obtain ⟨hvf', hvd', hvl'⟩ := derivePatterns_valid defs hv q hq
    exact hpne (pattern_eq_of_key_eq hvf hvd hvl hvf' hvd' hvl' hkeq)

/-- Claim C6: for valid definitions the derived pattern list has pairwise
distinct labels, is sorted ascending by (ordinal index, weekday index),
and does not depend on the input order of the definitions. -/
theorem C6_patterns (defs defs' : List RecDef)
    (hv : ∀ a ∈ defs, a.day ∈ weekdays ∧ a.frequency ∈ ordinals)
    (hp : defs.Perm defs') :
    ((derivePatterns defs).map Pattern.label).Nodup ∧
    (derivePatterns defs).Pairwise PatLe ∧
    derivePatterns defs = derivePatterns defs' := by
  have hv' : validDefs defs' := fun a ha => hv a (hp.symm.subset ha)
  refine ⟨?_, List.sorted_insertionSort PatLe _, ?_⟩
  · exact ((List.perm_insertionSort PatLe _).symm.map Pattern.label).nodup
      (dedupe_labels_nodup [] defs).1
  · have hperm : (derivePatterns defs).Perm (derivePatterns defs') :=
      ((List.perm_insertionSort PatLe _).trans
        (dedupe_perm defs defs' hv hp)).trans
        (List.perm_insertionSort PatLe _).symm
    haveI : IsAntisymm Pattern (fun p q => patKeyN p < patKeyN q) :=
      ⟨fun a b h1 h2 => absurd h1 (Nat.lt_asymm h2)⟩
    exact List.eq_of_perm_of_sorted hperm
      (derivePatterns_pairwise_lt defs hv)
      (derivePatterns_pairwise_lt defs' hv')

/-- A recurring definition with the given frequency and day. -/
def mkPatDef (f d : String) : RecDef :=
  { toNewRow := { exRow with frequency := f, day := d }, id := f ++ d }

/-- The spec's pattern example input, labels
Third Friday, First Monday, First Monday, Second Monday. -/
def exPatDefs : List RecDef :=
  [mkPatDef "Third" "Friday", mkPatDef "First" "Monday",
   mkPatDef "First" "Monday", mkPatDef "Second" "Monday"]

/-- A reordering of `exPatDefs`. -/
def exPatDefsShuffled : List RecDef :=
  [mkPatDef "First" "Monday", mkPatDef "Second" "Monday",
   mkPatDef "Third" "Friday", mkPatDef "First" "Monday"]

/-- Witness for C6: the spec's example yields
First Monday, Second Monday, Third Friday, independently of input order. -/
theorem C6_patterns_witness :
    (((derivePatterns exPatDefs).map Pattern.label).Nodup ∧
     (derivePatterns exPatDefs).Pairwise PatLe ∧
     derivePatterns exPatDefs = derivePatterns exPatDefsShuffled) ∧
    derivePatterns exPatDefs =
      [⟨"First Monday", "First", "Monday"⟩,
       ⟨"Second Monday", "Second", "Monday"⟩,
       ⟨"Third Friday", "Third", "Friday"⟩] :=
  ⟨C6_patterns exPatDefs exPatDefsShuffled (by decide) (by decide), by decide⟩

end RoutePlanner
